import Mathlib

/-!
Verification of `pagerank.py` (atlc/pagerank).

The Python code is shallowly embedded over exact rational arithmetic (`ℚ`).
A Python `dict` is modelled by its ordered key list together with a value
function; dictionaries produced by the code (probability distributions and
rank tables) are materialised as association lists built by mapping over the
corpus key list, exactly as the code builds them by iterating over
`corpus.keys()`.
-/

namespace PageRank

/-- The corpus: `keys` is the ordered list of pages (the keys of the Python
dict), `links pg` is the set `corpus[pg]` of outbound links of page `pg`.
(`links` is a total function; only its values on `keys` are ever read.) -/
structure Corpus where
  keys : List String
  links : String → Finset String

/-- The key list `corpus.keys()` has no duplicate pages (true of every Python dict). -/
abbrev Corpus.Nodup (c : Corpus) : Prop := c.keys.Nodup

/-- The corpus invariant from the spec: every link target is itself a key of
the corpus (the crawler keeps only links whose target is in the corpus). -/
abbrev Corpus.Invariant (c : Corpus) : Prop :=
  ∀ p ∈ c.keys, ∀ q ∈ c.links p, q ∈ c.keys

/-- The page count `N = len(corpus)` as a rational. -/
def Corpus.N (c : Corpus) : ℚ := (c.keys.length : ℚ)

/-- Embedding of `transition_model(corpus, page, damping_factor)`, `src/pagerank.py`
lines 51–84.  If the current page has no outbound links every page gets
`1/N`; otherwise every page gets `(1-d)/N`, and pages linked from the
current page get an extra `d/LINKS_LEN`.  The returned dict is built by
iterating over `corpus` keys. -/
def transition_model (c : Corpus) (page : String) (d : ℚ) : List (String × ℚ) :=
  let links := c.links page
  if links.card = 0 then
    c.keys.map (fun pg => (pg, 1 / c.N))
  else
    c.keys.map (fun pg =>
      (pg, if pg ∈ links then (1 - d) / c.N + d / (links.card : ℚ)
           else (1 - d) / c.N))

/-- Looking up a key of a dict built by mapping over a key list returns the
mapped value at the first occurrence of that key. -/
theorem lookup_map_self {f : String → ℚ} :
    ∀ {l : List String} {pg : String}, pg ∈ l →
      (l.map (fun p => (p, f p))).lookup pg = some (f pg)
  | [], _, h => absurd h (List.not_mem_nil _)
  | k :: ks, pg, h => by
    rcases List.mem_cons.mp h with h | h
    · subst h
      simp [List.lookup]
    · by_cases hk : pg = k
      · subst hk; simp [List.lookup]
      · have hb : (pg == k) = false := beq_false_of_ne hk
        simpa [List.lookup, hb] using lookup_map_self (f := f) h

/-- The sum of the values of a dict built by mapping over a key list. -/
theorem values_sum_map {f : String → ℚ} (l : List String) :
    ((l.map (fun p => (p, f p))).map Prod.snd).sum = (l.map f).sum := by
  simp [List.map_map, Function.comp_def]

/-- C1 -- For every corpus with at least one page, every key `P` with an empty
outbound-link set, and every damping factor `d`, `transition_model` assigns
probability exactly `1/N` to every page of the corpus, independent of `d`. -/
theorem transition_model_dangling (c : Corpus) (page : String) (d : ℚ)
    (hN : c.keys ≠ []) (hpage : page ∈ c.keys) (hlinks : c.links page = ∅) :
    ∀ pg ∈ c.keys, (transition_model c page d).lookup pg = some (1 / c.N) := by
  intro pg hpg
  unfold transition_model
  rw [hlinks]
  simpa using lookup_map_self (f := fun _ => 1 / c.N) hpg

/-- Witness for C1 on the corpus `{A: ∅, B: {A}}` with `d = 17/20`. -/
theorem transition_model_dangling_witness :
    (transition_model ⟨["A", "B"], fun p => if p = "B" then {"A"} else ∅⟩
        "A" (17/20)).lookup "B" = some (1 / 2) := by
  have h := transition_model_dangling
      ⟨["A", "B"], fun p => if p = "B" then {"A"} else ∅⟩ "A" (17/20)
      (by decide) (by decide) (by decide) "B" (by decide)
  simpa [Corpus.N] using h

/-- Converting the sum of a mapped key list into a `Finset` sum (valid since
dict keys are duplicate-free). -/
theorem list_sum_eq_finset_sum {l : List String} (hnd : l.Nodup) (f : String → ℚ) :
    (l.map f).sum = ∑ p ∈ l.toFinset, f p :=
  (List.sum_toFinset f hnd).symm

/-- The two-page corpus `{A: {B}, B: {A}}` from the spec's concrete scenario. -/
def corpusAB : Corpus :=
  ⟨["A", "B"], fun p => if p = "A" then {"B"} else if p = "B" then {"A"} else ∅⟩

/-- C2 -- For every corpus with at least one page, every key `P` with a
non-empty link set `L` and every damping factor `d`, `transition_model`
assigns exactly `(1-d)/N` to every corpus page not in `L` and exactly
`(1-d)/N + d/|L|` to every corpus page in `L`. -/
theorem transition_model_linked (c : Corpus) (page : String) (d : ℚ)
    (hN : c.keys ≠ []) (hpage : page ∈ c.keys) (hlinks : c.links page ≠ ∅) :
    (∀ pg ∈ c.keys, pg ∉ c.links page →
        (transition_model c page d).lookup pg = some ((1 - d) / c.N)) ∧
    (∀ pg ∈ c.keys, pg ∈ c.links page →
        (transition_model c page d).lookup pg
          = some ((1 - d) / c.N + d / ((c.links page).card : ℚ))) := by
  have hcard : (c.links page).card ≠ 0 := by
    simpa [Finset.card_eq_zero] using hlinks
  constructor
  · intro pg hpg hmem
    unfold transition_model
    simp only [if_neg hcard]
    rw [lookup_map_self hpg]
    simp [hmem]
  · intro pg hpg hmem
    unfold transition_model
    simp only [if_neg hcard]
    rw [lookup_map_self hpg]
    simp [hmem]

/-- Witness for C2 on the corpus `{A: {B}, B: {A}}` with `d = 17/20`:
page `A` (not linked from `A`) gets `(1-d)/N = 3/40` and page `B` (linked
from `A`) gets `(1-d)/N + d/1 = 37/40`. -/
theorem transition_model_linked_witness :
    (transition_model corpusAB "A" (17/20)).lookup "A" = some (3/40) ∧
    (transition_model corpusAB "A" (17/20)).lookup "B" = some (37/40) := by
  have h := transition_model_linked corpusAB "A" (17/20)
      (by decide) (by decide) (by decide)
  constructor
  · have := h.1 "A" (by decide) (by decide)
    rw [this]
    norm_num [corpusAB, Corpus.N]
  · have := h.2 "B" (by decide) (by decide)
    rw [this]
    norm_num [corpusAB, Corpus.N]

/-- C3 -- For every non-empty corpus satisfying the invariant, every corpus
page and every damping factor `d ∈ [0,1)`, the values of the distribution
returned by `transition_model` sum to exactly `1`. -/
theorem transition_model_sum_one (c : Corpus) (page : String) (d : ℚ)
    (hN : c.keys ≠ []) (hnd : c.Nodup) (hinv : c.Invariant) (hpage : page ∈ c.keys)
    (hd0 : 0 ≤ d) (hd1 : d < 1) :
    ((transition_model c page d).map Prod.snd).sum = 1 := by
  have hlen : (c.keys.length : ℚ) ≠ 0 := by
    exact_mod_cast fun h => hN (List.length_eq_zero.mp h)
  have hKcard : c.keys.toFinset.card = c.keys.length :=
    List.toFinset_card_of_nodup hnd
  unfold transition_model
  by_cases hcard : (c.links page).card = 0
  · rw [if_pos hcard, values_sum_map, list_sum_eq_finset_sum hnd,
      Finset.sum_const, hKcard, nsmul_eq_mul]
    field_simp [Corpus.N]
  · rw [if_neg hcard, values_sum_map, list_sum_eq_finset_sum hnd]
    have hsplit : ∀ pg : String,
        (if pg ∈ c.links page then (1 - d) / c.N + d / ((c.links page).card : ℚ)
         else (1 - d) / c.N)
        = (1 - d) / c.N
          + (if pg ∈ c.links page then d / ((c.links page).card : ℚ) else 0) := by
      intro pg; split <;> ring
    rw [Finset.sum_congr rfl (fun pg _ => hsplit pg), Finset.sum_add_distrib,
      Finset.sum_const, hKcard, nsmul_eq_mul, Finset.sum_ite_mem]
    have hsub : c.links page ⊆ c.keys.toFinset := by
      intro q hq
      exact List.mem_toFinset.mpr (hinv page hpage q hq)
    rw [Finset.inter_eq_right.mpr hsub, Finset.sum_const, nsmul_eq_mul]
    have hLcard : ((c.links page).card : ℚ) ≠ 0 := by exact_mod_cast hcard
    field_simp [Corpus.N]

/-- Witness for C3 on the corpus `{A: {B}, B: {A}}`, page `A`, `d = 17/20`. -/
theorem transition_model_sum_one_witness :
    ((transition_model corpusAB "A" (17/20)).map Prod.snd).sum = 1 :=
  transition_model_sum_one corpusAB "A" (17/20)
    (by decide) (by decide) (by decide) (by decide) (by norm_num) (by norm_num)

/-- One inner-loop contribution of `iterate_pagerank`: the amount the source
page `pg` adds to `new_ranks[page]` in the `for pg in corpus.keys()` loop
(src/pagerank.py lines 147–151): `d * ranks[pg] / len(corpus[pg])` when
`page in corpus[pg]`, else `d * ranks[pg] / N` when `corpus[pg]` is empty,
else nothing. -/
def contrib (c : Corpus) (d : ℚ) (ranks : String → ℚ) (page pg : String) : ℚ :=
  if page ∈ c.links pg then d * ranks pg / ((c.links pg).card : ℚ)
  else if (c.links pg).card = 0 then d * ranks pg / c.N
  else 0

/-- One pass of the `while` loop of `iterate_pagerank` (lines 144–151):
`new_ranks[page]` starts at `(1-d)/N` and accumulates the contribution of
every page of the corpus, reading only the old table `ranks`. -/
def iterate_step (c : Corpus) (d : ℚ) (ranks : String → ℚ) (page : String) : ℚ :=
  (1 - d) / c.N + (c.keys.map (contrib c d ranks page)).sum

/-- The quantity `max(abs(new_ranks[page] - ranks[page]) for page in corpus.keys())`
(line 153).  The fold starts at `0`; for a non-empty corpus this equals the
Python `max`, every compared value being an absolute value. -/
def maxDiff (keys : List String) (a b : String → ℚ) : ℚ :=
  (keys.map (fun p => |a p - b p|)).foldr max 0

/-- The `while True` loop of `iterate_pagerank` (lines 143–156), with explicit
fuel bounding the number of passes; `none` means the fuel ran out before the
convergence test succeeded.  On convergence the code `break`s before
`ranks = new_ranks`, so the previous table is returned. -/
def iterate_loop (c : Corpus) (d : ℚ) : Nat → (String → ℚ) → Option (String → ℚ)
  | 0, _ => none
  | fuel + 1, ranks =>
    if maxDiff c.keys (iterate_step c d ranks) ranks < 1/1000 then some ranks
    else iterate_loop c d fuel (iterate_step c d ranks)

/-- Embedding of `iterate_pagerank(corpus, damping_factor)` (lines 126–159): every page
starts at `1/N`, the loop runs until convergence, and the returned dict has
exactly the corpus keys. -/
def iterate_pagerank (c : Corpus) (d : ℚ) (fuel : Nat) :
    Option (List (String × ℚ)) :=
  (iterate_loop c d fuel (fun _ => 1 / c.N)).map
    (fun ranks => c.keys.map (fun p => (p, ranks p)))

/-- A linked contribution can only come from a page with at least one link,
so the two kinds of contribution split as a sum of two indicator terms. -/
theorem contrib_split (c : Corpus) (d : ℚ) (ranks : String → ℚ)
    (page pg : String) :
    contrib c d ranks page pg
      = (if page ∈ c.links pg then d * (ranks pg / ((c.links pg).card : ℚ)) else 0)
        + (if (c.links pg).card = 0 then d * (ranks pg / c.N) else 0) := by
  unfold contrib
  by_cases hP : page ∈ c.links pg
  · have hQ : (c.links pg).card ≠ 0 := Finset.card_ne_zero_of_mem hP
    simp [hP, hQ, mul_div_assoc]
  · by_cases hQ : (c.links pg).card = 0 <;> simp [hP, hQ, mul_div_assoc]

/-- C4 -- Each pass of `iterate_pagerank` is a synchronous update computed
from the previous table only: the new rank of any page `p` equals
`(1-d)/N + d·Σ_{i : p ∈ links(i)} ranks(i)/outdeg(i)
        + d·Σ_{j : outdeg(j)=0} ranks(j)/N`,
the sums ranging over corpus pages.  (`iterate_step` is a function of the old
table alone, so no value of the new pass is read while computing another.) -/
theorem iterate_step_eq_spec_formula (c : Corpus) (d : ℚ) (ranks : String → ℚ)
    (hnd : c.Nodup) (page : String) :
    iterate_step c d ranks page
      = (1 - d) / c.N
        + d * (∑ i ∈ c.keys.toFinset.filter (fun i => page ∈ c.links i),
            ranks i / ((c.links i).card : ℚ))
        + d * (∑ j ∈ c.keys.toFinset.filter (fun j => (c.links j).card = 0),
            ranks j / c.N) := by
  unfold iterate_step
  rw [list_sum_eq_finset_sum hnd,
    Finset.sum_congr rfl (fun pg _ => contrib_split c d ranks page pg),
    Finset.sum_add_distrib]
  simp only [Finset.sum_filter, Finset.mul_sum, mul_ite, mul_zero]
  ring

/-- Witness for C4: on the corpus `{A: {B}, B: {A}}` with `d = 17/20` and the
uniform table, the pass value at `A` matches the spec formula. -/
theorem iterate_step_eq_spec_formula_witness :
    iterate_step corpusAB (17/20) (fun _ => 1/2) "A"
      = (1 - 17/20) / corpusAB.N
        + (17/20) * (∑ i ∈ corpusAB.keys.toFinset.filter
            (fun i => "A" ∈ corpusAB.links i),
            (1:ℚ)/2 / ((corpusAB.links i).card : ℚ))
        + (17/20) * (∑ j ∈ corpusAB.keys.toFinset.filter
            (fun j => (corpusAB.links j).card = 0),
            (1:ℚ)/2 / corpusAB.N) :=
  iterate_step_eq_spec_formula corpusAB (17/20) (fun _ => 1/2) (by decide) "A"

/-- The L1 distance between two rank tables over the corpus pages. -/
def L1dist (c : Corpus) (a b : String → ℚ) : ℚ :=
  ∑ p ∈ c.keys.toFinset, |a p - b p|

/-- Summing the contribution of a fixed source page `pg` over every target
page of the corpus gives exactly `d * ranks[pg]`: a dangling page spreads
`d·rank/N` over the `N` pages, a linking page spreads `d·rank/L` over its
`L` links (all of which are corpus pages by the invariant). -/
theorem contrib_column_sum (c : Corpus) (d : ℚ) (r : String → ℚ) (pg : String)
    (hnd : c.Nodup) (hlen : (c.keys.length : ℚ) ≠ 0)
    (hsub : ∀ q ∈ c.links pg, q ∈ c.keys) :
    ∑ page ∈ c.keys.toFinset, contrib c d r page pg = d * r pg := by
  have hKcard : c.keys.toFinset.card = c.keys.length :=
    List.toFinset_card_of_nodup hnd
  by_cases hcard : (c.links pg).card = 0
  · have hempty : c.links pg = ∅ := Finset.card_eq_zero.mp hcard
    have hval : ∀ page ∈ c.keys.toFinset, contrib c d r page pg = d * r pg / c.N := by
      intro page _
      unfold contrib
      simp [hempty]
    rw [Finset.sum_congr rfl hval, Finset.sum_const, hKcard, nsmul_eq_mul]
    unfold Corpus.N
    field_simp
  · have hval : ∀ page ∈ c.keys.toFinset, contrib c d r page pg
        = if page ∈ c.links pg then d * r pg / ((c.links pg).card : ℚ) else 0 := by
      intro page _
      unfold contrib
      by_cases hP : page ∈ c.links pg <;> simp [hP, hcard]
    rw [Finset.sum_congr rfl hval, Finset.sum_ite_mem]
    have hsubF : c.links pg ⊆ c.keys.toFinset :=
      fun q hq => List.mem_toFinset.mpr (hsub q hq)
    rw [Finset.inter_eq_right.mpr hsubF, Finset.sum_const, nsmul_eq_mul]
    have hL : ((c.links pg).card : ℚ) ≠ 0 := by exact_mod_cast hcard
    field_simp

/-- Contributions are linear in the rank table. -/
theorem contrib_sub (c : Corpus) (d : ℚ) (a b : String → ℚ) (page pg : String) :
    contrib c d a page pg - contrib c d b page pg
      = contrib c d (fun q => a q - b q) page pg := by
  unfold contrib
  by_cases hP : page ∈ c.links pg
  · simp only [if_pos hP]; ring
  · by_cases hQ : (c.links pg).card = 0 <;> simp [hP, hQ] <;> ring

/-- The difference of two passes started from different tables: the constant
`(1-d)/N` cancels and the contributions subtract. -/
theorem iterate_step_sub (c : Corpus) (d : ℚ) (a b : String → ℚ) (hnd : c.Nodup)
    (page : String) :
    iterate_step c d a page - iterate_step c d b page
      = ∑ pg ∈ c.keys.toFinset, contrib c d (fun q => a q - b q) page pg := by
  unfold iterate_step
  rw [list_sum_eq_finset_sum hnd, list_sum_eq_finset_sum hnd]
  have h1 : ∑ pg ∈ c.keys.toFinset, contrib c d (fun q => a q - b q) page pg
      = ∑ pg ∈ c.keys.toFinset, (contrib c d a page pg - contrib c d b page pg) :=
    Finset.sum_congr rfl (fun pg _ => (contrib_sub c d a b page pg).symm)
  rw [h1, Finset.sum_sub_distrib]
  ring

/-- For a nonnegative damping factor the contribution is dominated in
absolute value by the contribution of the absolute-value table. -/
theorem abs_contrib_le (c : Corpus) (d : ℚ) (r : String → ℚ) (page pg : String)
    (hd0 : 0 ≤ d) :
    |contrib c d r page pg| ≤ contrib c d (fun q => |r q|) page pg := by
  unfold contrib
  by_cases hP : page ∈ c.links pg
  · simp only [if_pos hP]
    rw [abs_div, abs_mul, abs_of_nonneg hd0, Nat.abs_cast]
  · by_cases hQ : (c.links pg).card = 0
    · simp only [if_neg hP, if_pos hQ]
      unfold Corpus.N
      rw [abs_div, abs_mul, abs_of_nonneg hd0, Nat.abs_cast]
    · simp [hP, hQ]

/-- L1 contraction of one pass: the distance between the images of two
tables is at most `d` times the distance between the tables. -/
theorem iterate_step_contract (c : Corpus) (d : ℚ) (a b : String → ℚ)
    (hnd : c.Nodup) (hinv : c.Invariant) (hlen : (c.keys.length : ℚ) ≠ 0)
    (hd0 : 0 ≤ d) :
    L1dist c (iterate_step c d a) (iterate_step c d b) ≤ d * L1dist c a b := by
  unfold L1dist
  have hstep : ∀ page ∈ c.keys.toFinset,
      |iterate_step c d a page - iterate_step c d b page|
        ≤ ∑ pg ∈ c.keys.toFinset, contrib c d (fun q => |a q - b q|) page pg := by
    intro page _
    rw [iterate_step_sub c d a b hnd page]
    exact le_trans (Finset.abs_sum_le_sum_abs _ _)
      (Finset.sum_le_sum (fun pg _ => abs_contrib_le c d _ page pg hd0))
  calc ∑ page ∈ c.keys.toFinset, |iterate_step c d a page - iterate_step c d b page|
      ≤ ∑ page ∈ c.keys.toFinset, ∑ pg ∈ c.keys.toFinset,
          contrib c d (fun q => |a q - b q|) page pg := Finset.sum_le_sum hstep
    _ = ∑ pg ∈ c.keys.toFinset, ∑ page ∈ c.keys.toFinset,
          contrib c d (fun q => |a q - b q|) page pg := Finset.sum_comm
    _ = ∑ pg ∈ c.keys.toFinset, d * |a pg - b pg| :=
        Finset.sum_congr rfl (fun pg hpg =>
          contrib_column_sum c d _ pg hnd hlen
            (fun q hq => hinv pg (List.mem_toFinset.mp hpg) q hq))
    _ = d * ∑ pg ∈ c.keys.toFinset, |a pg - b pg| := (Finset.mul_sum _ _ _).symm

/-- A fold of `max` starting from `0` over nonnegative values is bounded by
their sum. -/
theorem foldr_max_le_sum : ∀ l : List ℚ, (∀ x ∈ l, 0 ≤ x) → l.foldr max 0 ≤ l.sum
  | [], _ => le_refl 0
  | x :: l, h => by
    have hx : 0 ≤ x := h x (List.mem_cons_self x l)
    have hl : ∀ y ∈ l, 0 ≤ y := fun y hy => h y (List.mem_cons_of_mem x hy)
    have hsum : 0 ≤ l.sum := List.sum_nonneg hl
    simp only [List.foldr_cons, List.sum_cons]
    exact max_le (le_add_of_nonneg_right hsum)
      ((foldr_max_le_sum l hl).trans (le_add_of_nonneg_left hx))

/-- The convergence-test quantity of the code is bounded by the L1 distance. -/
theorem maxDiff_le_L1dist (c : Corpus) (a b : String → ℚ) (hnd : c.Nodup) :
    maxDiff c.keys a b ≤ L1dist c a b := by
  unfold maxDiff L1dist
  rw [← list_sum_eq_finset_sum hnd]
  refine foldr_max_le_sum _ ?_
  intro x hx
  rcases List.mem_map.mp hx with ⟨p, _, rfl⟩
  exact abs_nonneg _

/-- Geometric decay of the L1 distance between consecutive iterates. -/
theorem L1dist_iterate_le (c : Corpus) (d : ℚ) (r0 : String → ℚ)
    (hnd : c.Nodup) (hinv : c.Invariant) (hlen : (c.keys.length : ℚ) ≠ 0)
    (hd0 : 0 ≤ d) :
    ∀ k : Nat,
      L1dist c ((iterate_step c d)^[k + 1] r0) ((iterate_step c d)^[k] r0)
        ≤ d ^ k * L1dist c (iterate_step c d r0) r0 := by
  intro k
  induction k with
  | zero => simp
  | succ k ih =>
    have hcon := iterate_step_contract c d ((iterate_step c d)^[k + 1] r0)
      ((iterate_step c d)^[k] r0) hnd hinv hlen hd0
    rw [← Function.iterate_succ_apply' (iterate_step c d) (k + 1) r0,
        ← Function.iterate_succ_apply' (iterate_step c d) k r0] at hcon
    calc L1dist c ((iterate_step c d)^[k + 1 + 1] r0) ((iterate_step c d)^[k + 1] r0)
        ≤ d * L1dist c ((iterate_step c d)^[k + 1] r0) ((iterate_step c d)^[k] r0) := hcon
      _ ≤ d * (d ^ k * L1dist c (iterate_step c d r0) r0) :=
          mul_le_mul_of_nonneg_left ih hd0
      _ = d ^ (k + 1) * L1dist c (iterate_step c d r0) r0 := by ring

/-- For `0 ≤ d < 1` some iterate satisfies the convergence test of the
`while` loop. -/
theorem stop_reached (c : Corpus) (d : ℚ) (r0 : String → ℚ)
    (hnd : c.Nodup) (hinv : c.Invariant) (hlen : (c.keys.length : ℚ) ≠ 0)
    (hd0 : 0 ≤ d) (hd1 : d < 1) :
    ∃ k : Nat,
      maxDiff c.keys (iterate_step c d ((iterate_step c d)^[k] r0))
        ((iterate_step c d)^[k] r0) < 1 / 1000 := by
  set C := L1dist c (iterate_step c d r0) r0 with hCdef
  have hC : 0 ≤ C := Finset.sum_nonneg (fun p _ => abs_nonneg _)
  have hC1 : (0 : ℚ) < C + 1 := by linarith
  obtain ⟨n, hn⟩ := exists_pow_lt_of_lt_one
    (x := (1 / 1000) / (C + 1)) (y := d) (by positivity) hd1
  refine ⟨n, ?_⟩
  have h1 : maxDiff c.keys (iterate_step c d ((iterate_step c d)^[n] r0))
      ((iterate_step c d)^[n] r0)
      ≤ L1dist c ((iterate_step c d)^[n + 1] r0) ((iterate_step c d)^[n] r0) := by
    rw [Function.iterate_succ_apply' (iterate_step c d) n r0]
    exact maxDiff_le_L1dist c _ _ hnd
  have h2 : L1dist c ((iterate_step c d)^[n + 1] r0) ((iterate_step c d)^[n] r0)
      ≤ d ^ n * C := L1dist_iterate_le c d r0 hnd hinv hlen hd0 n
  have h3 : d ^ n * C ≤ d ^ n * (C + 1) :=
    mul_le_mul_of_nonneg_left (by linarith) (pow_nonneg hd0 n)
  have h4 : d ^ n * (C + 1) < (1 / 1000) / (C + 1) * (C + 1) :=
    mul_lt_mul_of_pos_right hn hC1
  have h5 : (1 / 1000 : ℚ) / (C + 1) * (C + 1) = 1 / 1000 :=
    div_mul_cancel₀ _ (ne_of_gt hC1)
  linarith

/-- The one-step unfolding of the `while` loop: compare the next pass to the
current table; stop (returning the current table) when the largest change is
below the threshold, otherwise continue from the new table. -/
theorem iterate_loop_succ (c : Corpus) (d : ℚ) (fuel : Nat) (ranks : String → ℚ) :
    iterate_loop c d (fuel + 1) ranks
      = if maxDiff c.keys (iterate_step c d ranks) ranks < 1 / 1000
        then some ranks
        else iterate_loop c d fuel (iterate_step c d ranks) := rfl

/-- If the convergence test succeeds at the `k`-th iterate, the loop with
`k+1` units of fuel returns a table. -/
theorem loop_some_of_stop (c : Corpus) (d : ℚ) :
    ∀ (k : Nat) (r0 : String → ℚ),
      maxDiff c.keys (iterate_step c d ((iterate_step c d)^[k] r0))
        ((iterate_step c d)^[k] r0) < 1 / 1000 →
      ∃ res, iterate_loop c d (k + 1) r0 = some res := by
  intro k
  induction k with
  | zero =>
    intro r0 h
    simp only [Function.iterate_zero, id_eq] at h
    exact ⟨r0, by rw [iterate_loop_succ, if_pos h]⟩
  | succ k ih =>
    intro r0 h
    by_cases hstop : maxDiff c.keys (iterate_step c d r0) r0 < 1 / 1000
    · exact ⟨r0, by rw [iterate_loop_succ, if_pos hstop]⟩
    · have h' : maxDiff c.keys
          (iterate_step c d ((iterate_step c d)^[k] (iterate_step c d r0)))
          ((iterate_step c d)^[k] (iterate_step c d r0)) < 1 / 1000 := by
        rw [← Function.iterate_succ_apply (iterate_step c d) k r0]
        exact h
      obtain ⟨res, hres⟩ := ih (iterate_step c d r0) h'
      exact ⟨res, by rw [iterate_loop_succ, if_neg hstop]; exact hres⟩

/-- C5 -- For every non-empty corpus satisfying the invariant and every
damping factor `d ∈ [0,1)`, `iterate_pagerank` terminates (some finite fuel
makes the loop return); and the loop stops exactly when the maximum absolute
change between the old and new tables is `< 0.001`, otherwise continuing
from the new table. -/
theorem iterate_pagerank_terminates (c : Corpus) (d : ℚ)
    (hN : c.keys ≠ []) (hnd : c.Nodup) (hinv : c.Invariant)
    (hd0 : 0 ≤ d) (hd1 : d < 1) :
    (∃ fuel t, iterate_pagerank c d fuel = some t) ∧
    ∀ (fuel : Nat) (ranks : String → ℚ),
      iterate_loop c d (fuel + 1) ranks
        = if maxDiff c.keys (iterate_step c d ranks) ranks < 1 / 1000
          then some ranks
          else iterate_loop c d fuel (iterate_step c d ranks) := by
  constructor
  · have hlen : (c.keys.length : ℚ) ≠ 0 := by
      exact_mod_cast fun h => hN (List.length_eq_zero.mp h)
    obtain ⟨k, hk⟩ := stop_reached c d (fun _ => 1 / c.N) hnd hinv hlen hd0 hd1
    obtain ⟨res, hres⟩ := loop_some_of_stop c d k _ hk
    exact ⟨k + 1, c.keys.map (fun p => (p, res p)), by
      unfold iterate_pagerank
      rw [hres, Option.map_some']⟩
  · intro fuel ranks
    rfl

/-- Witness for C5 on the corpus `{A: {B}, B: {A}}` with `d = 17/20`. -/
theorem iterate_pagerank_terminates_witness :
    ∃ fuel t, iterate_pagerank corpusAB (17/20) fuel = some t :=
  (iterate_pagerank_terminates corpusAB (17/20)
    (by decide) (by decide) (by decide) (by norm_num) (by norm_num)).1

/-- One pass preserves the total rank: columns sum to `d` and the uniform
jump contributes `(1-d)`. -/
theorem iterate_step_sum_one (c : Corpus) (d : ℚ) (r : String → ℚ)
    (hnd : c.Nodup) (hinv : c.Invariant) (hlen : (c.keys.length : ℚ) ≠ 0)
    (hsum : ∑ p ∈ c.keys.toFinset, r p = 1) :
    ∑ p ∈ c.keys.toFinset, iterate_step c d r p = 1 := by
  have hKcard : c.keys.toFinset.card = c.keys.length :=
    List.toFinset_card_of_nodup hnd
  have hexp : ∀ page ∈ c.keys.toFinset, iterate_step c d r page
      = (1 - d) / c.N + ∑ pg ∈ c.keys.toFinset, contrib c d r page pg := by
    intro page _
    unfold iterate_step
    rw [list_sum_eq_finset_sum hnd]
  rw [Finset.sum_congr rfl hexp, Finset.sum_add_distrib, Finset.sum_const, hKcard,
    nsmul_eq_mul, Finset.sum_comm]
  have hcol : ∀ pg ∈ c.keys.toFinset,
      ∑ page ∈ c.keys.toFinset, contrib c d r page pg = d * r pg := fun pg hpg =>
    contrib_column_sum c d r pg hnd hlen
      (fun q hq => hinv pg (List.mem_toFinset.mp hpg) q hq)
  rw [Finset.sum_congr rfl hcol, ← Finset.mul_sum, hsum, mul_one]
  unfold Corpus.N
  field_simp

/-- The loop invariant: if the entering table sums to `1` and the loop
returns, the returned table sums to `1`. -/
theorem iterate_loop_sum_one (c : Corpus) (d : ℚ)
    (hnd : c.Nodup) (hinv : c.Invariant) (hlen : (c.keys.length : ℚ) ≠ 0) :
    ∀ (fuel : Nat) (r res : String → ℚ),
      (∑ p ∈ c.keys.toFinset, r p = 1) →
      iterate_loop c d fuel r = some res →
      ∑ p ∈ c.keys.toFinset, res p = 1 := by
  intro fuel
  induction fuel with
  | zero =>
    intro r res _ h
    simp [iterate_loop] at h
  | succ fuel ih =>
    intro r res hr h
    rw [iterate_loop_succ] at h
    by_cases hstop : maxDiff c.keys (iterate_step c d r) r < 1 / 1000
    · rw [if_pos hstop] at h
      rw [← Option.some_inj.mp h]
      exact hr
    · rw [if_neg hstop] at h
      exact ih (iterate_step c d r) res
        (iterate_step_sum_one c d r hnd hinv hlen hr) h

/-- C6 -- For every non-empty corpus satisfying the invariant and every
damping factor `d ∈ [0,1)`, any rank table returned by `iterate_pagerank`
sums to exactly `1` in rational arithmetic: the initial table sums to `1`
and every pass preserves the sum. -/
theorem iterate_pagerank_sum_one (c : Corpus) (d : ℚ) (fuel : Nat)
    (t : List (String × ℚ))
    (hN : c.keys ≠ []) (hnd : c.Nodup) (hinv : c.Invariant)
    (hd0 : 0 ≤ d) (hd1 : d < 1)
    (h : iterate_pagerank c d fuel = some t) :
    (t.map Prod.snd).sum = 1 := by
  have hlen : (c.keys.length : ℚ) ≠ 0 := by
    exact_mod_cast fun h0 => hN (List.length_eq_zero.mp h0)
  have hKcard : c.keys.toFinset.card = c.keys.length :=
    List.toFinset_card_of_nodup hnd
  unfold iterate_pagerank at h
  obtain ⟨ranks, hloop, rfl⟩ := Option.map_eq_some'.mp h
  have hinit : ∑ p ∈ c.keys.toFinset, (1 : ℚ) / c.N = 1 := by
    rw [Finset.sum_const, hKcard, nsmul_eq_mul]
    unfold Corpus.N
    field_simp
  have hranks := iterate_loop_sum_one c d hnd hinv hlen fuel _ ranks hinit hloop
  rw [values_sum_map, list_sum_eq_finset_sum hnd]
  exact hranks

/-- Witness for C6: the table returned for `{A: {B}, B: {A}}`, `d = 17/20`
sums to `1`. -/
theorem iterate_pagerank_sum_one_witness :
    (([("A", (1:ℚ)/2), ("B", 1/2)]).map Prod.snd).sum = 1 := by
  have hstep : maxDiff corpusAB.keys
      (iterate_step corpusAB (17/20) (fun _ => 1 / corpusAB.N))
      (fun _ => 1 / corpusAB.N) < 1/1000 := by
    norm_num [maxDiff, iterate_step, contrib, corpusAB, Corpus.N,
      show ("A":String) ≠ "B" by decide, show ("B":String) ≠ "A" by decide,
      Finset.singleton_ne_empty]
  have h : iterate_pagerank corpusAB (17/20) 1 = some [("A", (1:ℚ)/2), ("B", 1/2)] := by
    unfold iterate_pagerank
    rw [iterate_loop_succ, if_pos hstep]
    norm_num [corpusAB, Corpus.N]
  exact iterate_pagerank_sum_one corpusAB (17/20) 1 _
    (by decide) (by decide) (by decide) (by norm_num) (by norm_num) h

/-- C7 -- For the corpus `{A: {B}, B: {A}}` and `d = 0.85`, the iterative
estimator returns rank exactly `1/2` for both pages (for any number of
allowed passes: the very first convergence test succeeds, the uniform table
being the exact fixed point). -/
theorem iterate_pagerank_AB : ∀ fuel : Nat,
    iterate_pagerank corpusAB (17/20) (fuel + 1)
      = some [("A", 1/2), ("B", 1/2)] := by
  intro fuel
  have hstep : maxDiff corpusAB.keys
      (iterate_step corpusAB (17/20) (fun _ => 1 / corpusAB.N))
      (fun _ => 1 / corpusAB.N) < 1/1000 := by
    norm_num [maxDiff, iterate_step, contrib, corpusAB, Corpus.N,
      show ("A":String) ≠ "B" by decide, show ("B":String) ≠ "A" by decide,
      Finset.singleton_ne_empty]
  unfold iterate_pagerank
  rw [iterate_loop_succ, if_pos hstep]
  norm_num [corpusAB, Corpus.N]

/-- The loop is a deterministic function of its starting table: two
successful runs agree, whatever fuel each was given. -/
theorem iterate_loop_det (c : Corpus) (d : ℚ) :
    ∀ (fuel1 fuel2 : Nat) (r a b : String → ℚ),
      iterate_loop c d fuel1 r = some a →
      iterate_loop c d fuel2 r = some b → a = b := by
  intro fuel1
  induction fuel1 with
  | zero =>
    intro fuel2 r a b h1 _
    simp [iterate_loop] at h1
  | succ fuel1 ih =>
    intro fuel2 r a b h1 h2
    cases fuel2 with
    | zero => simp [iterate_loop] at h2
    | succ fuel2 =>
      rw [iterate_loop_succ] at h1 h2
      by_cases hstop : maxDiff c.keys (iterate_step c d r) r < 1 / 1000
      · rw [if_pos hstop] at h1 h2
        exact (Option.some_inj.mp h1).symm.trans (Option.some_inj.mp h2)
      · rw [if_neg hstop] at h1 h2
        exact ih fuel2 (iterate_step c d r) a b h1 h2

/-- C8 -- `iterate_pagerank` is deterministic: for every corpus and damping
factor, two successful runs on the same inputs produce identical rank
tables. -/
theorem iterate_pagerank_deterministic (c : Corpus) (d : ℚ)
    (fuel1 fuel2 : Nat) (t1 t2 : List (String × ℚ))
    (h1 : iterate_pagerank c d fuel1 = some t1)
    (h2 : iterate_pagerank c d fuel2 = some t2) : t1 = t2 := by
  unfold iterate_pagerank at h1 h2
  obtain ⟨a, ha, rfl⟩ := Option.map_eq_some'.mp h1
  obtain ⟨b, hb, rfl⟩ := Option.map_eq_some'.mp h2
  rw [iterate_loop_det c d fuel1 fuel2 _ a b ha hb]

/-- Witness for C8: two runs on `{A: {B}, B: {A}}` with `d = 17/20` and
different fuel agree. -/
theorem iterate_pagerank_deterministic_witness :
    [("A", (1:ℚ)/2), ("B", 1/2)] = [("A", (1:ℚ)/2), ("B", 1/2)] := by
  have hstep : maxDiff corpusAB.keys
      (iterate_step corpusAB (17/20) (fun _ => 1 / corpusAB.N))
      (fun _ => 1 / corpusAB.N) < 1/1000 := by
    norm_num [maxDiff, iterate_step, contrib, corpusAB, Corpus.N,
      show ("A":String) ≠ "B" by decide, show ("B":String) ≠ "A" by decide,
      Finset.singleton_ne_empty]
  have h1 : iterate_pagerank corpusAB (17/20) 1 = some [("A", (1:ℚ)/2), ("B", 1/2)] := by
    unfold iterate_pagerank
    rw [iterate_loop_succ, if_pos hstep]
    norm_num [corpusAB, Corpus.N]
  have h2 : iterate_pagerank corpusAB (17/20) 2 = some [("A", (1:ℚ)/2), ("B", 1/2)] := by
    unfold iterate_pagerank
    rw [iterate_loop_succ, if_pos hstep]
    norm_num [corpusAB, Corpus.N]
  exact iterate_pagerank_deterministic corpusAB (17/20) 1 2 _ _ h1 h2

/-- The sampling loop of `sample_pagerank` (src/pagerank.py lines 107–111),
with the randomness of `random.choices` abstracted into an oracle `pick`
that, handed the transition distribution, returns the drawn page.  Each
step computes the transition model of the current page, draws the next
page, increments its visit counter and moves there. -/
def sample_loop (c : Corpus) (d : ℚ) (pick : List (String × ℚ) → String) :
    Nat → (String → Nat) → String → (String → Nat) × String
  | 0, visits, page => (visits, page)
  | n + 1, visits, page =>
    sample_loop c d pick n
      (fun q => if q = pick (transition_model c page d) then visits q + 1
                else visits q)
      (pick (transition_model c page d))

/-- The normalized dict `visits` of `sample_pagerank` just before the check
(lines 94–116): counters start at `0` for every corpus page, the walk runs
`n` steps from `start`, and each counter is divided by `n`. -/
def sample_table (c : Corpus) (d : ℚ) (n : Nat) (start : String)
    (pick : List (String × ℚ) → String) : List (String × ℚ) :=
  c.keys.map (fun p =>
    (p, (((sample_loop c d pick n (fun _ => 0) start).1 p : ℚ) / (n : ℚ))))

/-- Embedding of `sample_pagerank(corpus, damping_factor, n)` (lines 87–123): after the
walk the values are checked to sum to `1` within `0.001` absolute tolerance;
a failed check raises `ValueError`, otherwise the table is returned. -/
def sample_pagerank (c : Corpus) (d : ℚ) (n : Nat) (start : String)
    (pick : List (String × ℚ) → String) : Except String (List (String × ℚ)) :=
  if 1 / 1000 < |((sample_table c d n start pick).map Prod.snd).sum - 1| then
    Except.error "Probability check - values do not sum to 1."
  else
    Except.ok (sample_table c d n start pick)

/-- In both branches of `transition_model` the returned dict is built over
`corpus.keys()`, so its key list is exactly the corpus key list. -/
theorem transition_model_keys (c : Corpus) (page : String) (d : ℚ) :
    (transition_model c page d).map Prod.fst = c.keys := by
  unfold transition_model
  by_cases h : (c.links page).card = 0 <;>
    simp [h, List.map_map, Function.comp_def]

/-- Adding one visit at a corpus page increases the total count over the
corpus by exactly one. -/
theorem sum_incr_at_mem (K : Finset String) (visits : String → Nat)
    (next : String) (hmem : next ∈ K) :
    ∑ p ∈ K, (if p = next then visits p + 1 else visits p)
      = (∑ p ∈ K, visits p) + 1 := by
  have hsplit : ∀ p : String,
      (if p = next then visits p + 1 else visits p)
        = visits p + (if p = next then 1 else 0) := by
    intro p; split <;> simp
  rw [Finset.sum_congr rfl (fun p _ => hsplit p), Finset.sum_add_distrib,
    Finset.sum_ite_eq' K next (fun _ => 1), if_pos hmem]

/-- Every step of the walk increments exactly one counter, and that counter
belongs to a corpus page (`random.choices` draws from the distribution's
population, which is the corpus key list): after `n` steps the total visit
count has grown by `n`. -/
theorem sample_loop_sum (c : Corpus) (d : ℚ) (pick : List (String × ℚ) → String)
    (hN : c.keys ≠ []) (hnd : c.Nodup)
    (hpick : ∀ l : List (String × ℚ), l ≠ [] → pick l ∈ l.map Prod.fst) :
    ∀ (n : Nat) (visits : String → Nat) (page : String),
      ∑ p ∈ c.keys.toFinset, (sample_loop c d pick n visits page).1 p
        = (∑ p ∈ c.keys.toFinset, visits p) + n := by
  intro n
  induction n with
  | zero =>
    intro visits page
    simp [sample_loop]
  | succ n ih =>
    intro visits page
    have hne : transition_model c page d ≠ [] := by
      intro h0
      apply hN
      have h1 := congrArg (List.map Prod.fst) h0
      rwa [transition_model_keys] at h1
    have hmem : pick (transition_model c page d) ∈ c.keys.toFinset := by
      have h1 := hpick _ hne
      rw [transition_model_keys] at h1
      exact List.mem_toFinset.mpr h1
    rw [sample_loop, ih, sum_incr_at_mem _ _ _ hmem]
    omega

/-- The successful run of `sample_pagerank`: in exact arithmetic the counts
sum to `n`, so the normalized values sum to exactly `1`, the defensive check
passes and the table is returned. -/
theorem sample_pagerank_ok (c : Corpus) (d : ℚ) (n : Nat) (start : String)
    (pick : List (String × ℚ) → String)
    (hN : c.keys ≠ []) (hnd : c.Nodup)
    (hpick : ∀ l : List (String × ℚ), l ≠ [] → pick l ∈ l.map Prod.fst)
    (hn : 1 ≤ n) :
    sample_pagerank c d n start pick
        = Except.ok (sample_table c d n start pick) ∧
    ((sample_table c d n start pick).map Prod.snd).sum = 1 := by
  have hcount := sample_loop_sum c d pick hN hnd hpick n (fun _ => 0) start
  simp only [Finset.sum_const_zero, zero_add] at hcount
  have hncast : ((n : ℚ)) ≠ 0 := by
    exact_mod_cast Nat.one_le_iff_ne_zero.mp hn
  have hsum : ((sample_table c d n start pick).map Prod.snd).sum = 1 := by
    unfold sample_table
    rw [values_sum_map, list_sum_eq_finset_sum hnd, ← Finset.sum_div,
      ← Nat.cast_sum, hcount, div_self hncast]
  refine ⟨?_, hsum⟩
  unfold sample_pagerank
  rw [if_neg ?_]
  rw [hsum]
  norm_num

/-- C9 -- `sample_pagerank` checks that the values of the table it is about
to return sum to `1` within `0.001` and fails with an error exactly when the
check fails; for every `n ≥ 1` (and any admissible draw oracle) the counts
sum to exactly `n`, so the returned values sum to exactly `1` and the error
branch is unreachable. -/
theorem sample_pagerank_sum_check (c : Corpus) (d : ℚ) (n : Nat) (start : String)
    (pick : List (String × ℚ) → String)
    (hN : c.keys ≠ []) (hnd : c.Nodup)
    (hpick : ∀ l : List (String × ℚ), l ≠ [] → pick l ∈ l.map Prod.fst)
    (hn : 1 ≤ n) :
    sample_pagerank c d n start pick
        = Except.ok (sample_table c d n start pick) ∧
    ((sample_table c d n start pick).map Prod.snd).sum = 1 :=
  sample_pagerank_ok c d n start pick hN hnd hpick hn

/-- A concrete admissible draw oracle: always take the first page of the
distribution (an arbitrary but fixed resolution of the randomness). -/
def pickFirst : List (String × ℚ) → String
  | [] => ""
  | x :: _ => x.1

/-- The oracle `pickFirst` draws from the population of any non-empty distribution. -/
theorem pickFirst_mem :
    ∀ l : List (String × ℚ), l ≠ [] → pickFirst l ∈ l.map Prod.fst
  | [], h => absurd rfl h
  | x :: xs, _ => by simp [pickFirst]

/-- Witness for C9 on `{A: {B}, B: {A}}`, `d = 17/20`, one sample drawn by
`pickFirst` from page `A`. -/
theorem sample_pagerank_sum_check_witness :
    sample_pagerank corpusAB (17/20) 1 "A" pickFirst
        = Except.ok (sample_table corpusAB (17/20) 1 "A" pickFirst) ∧
    ((sample_table corpusAB (17/20) 1 "A" pickFirst).map Prod.snd).sum = 1 :=
  sample_pagerank_sum_check corpusAB (17/20) 1 "A" pickFirst
    (by decide) (by decide) pickFirst_mem (by decide)

/-- C10 -- The mappings returned by `transition_model`, `sample_pagerank`
and `iterate_pagerank` all have key list exactly the corpus key list: every
corpus page is present and no other key is. -/
theorem output_keys_eq_corpus_keys (c : Corpus) (d : ℚ) :
    (∀ page : String, (transition_model c page d).map Prod.fst = c.keys) ∧
    (∀ (n : Nat) (start : String) (pick : List (String × ℚ) → String)
        (t : List (String × ℚ)),
        sample_pagerank c d n start pick = Except.ok t →
        t.map Prod.fst = c.keys) ∧
    (∀ (fuel : Nat) (t : List (String × ℚ)),
        iterate_pagerank c d fuel = some t →
        t.map Prod.fst = c.keys) := by
  refine ⟨fun page => transition_model_keys c page d, ?_, ?_⟩
  · intro n start pick t h
    unfold sample_pagerank at h
    split at h
    · cases h
    · cases h
      unfold sample_table
      simp [List.map_map, Function.comp_def]
  · intro fuel t h
    unfold iterate_pagerank at h
    obtain ⟨ranks, _, rfl⟩ := Option.map_eq_some'.mp h
    simp [List.map_map, Function.comp_def]

/-- Witness for C10: the three outputs on `{A: {B}, B: {A}}` with
`d = 17/20` all carry the key list `["A", "B"]`. -/
theorem output_keys_eq_corpus_keys_witness :
    (transition_model corpusAB "A" (17/20)).map Prod.fst = corpusAB.keys ∧
    (sample_table corpusAB (17/20) 1 "A" pickFirst).map Prod.fst = corpusAB.keys ∧
    ([("A", (1:ℚ)/2), ("B", 1/2)]).map Prod.fst = corpusAB.keys := by
  have H := output_keys_eq_corpus_keys corpusAB (17/20)
  have hsample := (sample_pagerank_ok corpusAB (17/20) 1 "A" pickFirst
    (by decide) (by decide) pickFirst_mem (by decide)).1
  have hstep : maxDiff corpusAB.keys
      (iterate_step corpusAB (17/20) (fun _ => 1 / corpusAB.N))
      (fun _ => 1 / corpusAB.N) < 1/1000 := by
    norm_num [maxDiff, iterate_step, contrib, corpusAB, Corpus.N,
      show ("A":String) ≠ "B" by decide, show ("B":String) ≠ "A" by decide,
      Finset.singleton_ne_empty]
  have hiter : iterate_pagerank corpusAB (17/20) 1
      = some [("A", (1:ℚ)/2), ("B", 1/2)] := by
    unfold iterate_pagerank
    rw [iterate_loop_succ, if_pos hstep]
    norm_num [corpusAB, Corpus.N]
  exact ⟨H.1 "A", H.2.1 1 "A" pickFirst _ hsample, H.2.2 1 _ hiter⟩

end PageRank
